import Mathlib

/-!
Shallow embedding of `src/train.py` (masked-sequence recommender training).

Conventions of the embedding:
* Item sequences are `List ℕ`; 0 is the padding sentinel.
* Python floats (losses, NDCG values, mask probabilities, the 1e-4
  tolerance) are modelled as rationals `ℚ`.
* The process-wide pseudo-random source (`random.random()`) is modelled as
  a stream `g : ℕ → ℚ` of draws together with a cursor index that is
  advanced exactly when the Python code consumes a draw (the `and` in
  `item != 0 and random.random() < mask_prob` short-circuits, so a draw is
  consumed only at non-zero items).
* A Python exception (ZeroDivisionError, FileNotFoundError, ValueError on
  `max([])`) is modelled as `none` / `Option`.
* The external collaborators (the torch model, the criterion, the metric
  evaluator `evaluate_model`) are oracles: per-batch loss values and
  per-epoch validation statistics are inputs of the embedding, since the
  spec treats the model as an external collaborator with a fixed contract.
-/

/-- Python slice `seq[-k:]`.  For `k = 0` this is the whole list (Python
`seq[-0:] = seq[0:]`), otherwise the last `k` elements. -/
def pySliceLast (seq : List ℕ) (k : ℕ) : List ℕ :=
  if k = 0 then seq else seq.drop (seq.length - k)

/-- `pad_sequence(seq, max_len)` from `src/train.py` lines 18-21:
left-truncate to the last `max_len` items, or left-pad with zeros. -/
def pad_sequence (seq : List ℕ) (maxLen : ℕ) : List ℕ :=
  if maxLen ≤ seq.length then pySliceLast seq maxLen
  else List.replicate (maxLen - seq.length) 0 ++ seq

/-- Inner loop of `mask_items` (lines 30-36) over one padded sequence.
`g` is the random stream, `idx` the stream cursor.  Returns the masked
sequence, the label sequence and the advanced cursor.  A draw is consumed
only when the item is non-zero, mirroring Python short-circuit `and`. -/
def maskSeq (g : ℕ → ℚ) (maskProb : ℚ) (maskId : ℕ) :
    List ℕ → ℕ → List ℕ × List ℕ × ℕ
  | [], idx => ([], [], idx)
  | item :: rest, idx =>
    if item = 0 then
      let r := maskSeq g maskProb maskId rest idx
      (item :: r.1, 0 :: r.2.1, r.2.2)
    else if g idx < maskProb then
      let r := maskSeq g maskProb maskId rest (idx + 1)
      (maskId :: r.1, item :: r.2.1, r.2.2)
    else
      let r := maskSeq g maskProb maskId rest (idx + 1)
      (item :: r.1, 0 :: r.2.1, r.2.2)

/-- `mask_items(seqs, num_items, mask_prob, seq_len)` from lines 23-40:
pad every sequence, then mask each non-zero position with probability
`mask_prob`, using `MASK_ID = num_items + 1`; the label is the original
item at masked positions and 0 elsewhere.  The random cursor is threaded
through the whole batch. -/
def mask_items (g : ℕ → ℚ) (seqs : List (List ℕ)) (numItems : ℕ)
    (maskProb : ℚ) (seqLen : ℕ) (idx : ℕ) :
    List (List ℕ) × List (List ℕ) × ℕ :=
  match seqs with
  | [] => ([], [], idx)
  | s :: rest =>
    let p := maskSeq g maskProb (numItems + 1) (pad_sequence s seqLen) idx
    let r := mask_items g rest numItems maskProb seqLen p.2.2
    (p.1 :: r.1, p.2.1 :: r.2.1, r.2.2)

/-- Python `/` on floats as observed here: raises (`none`) when the
denominator is zero. -/
def pyDiv (a b : ℚ) : Option ℚ :=
  if b = 0 then none else some (a / b)

/-- Python `range(0, n, step)` for `step > 0`: the batch start offsets
`0, step, 2*step, ...` below `n`. -/
def pyRange (n step : ℕ) : List ℕ :=
  (List.range ((n + step - 1) / step)).map (fun j => j * step)

/-- `evaluate_val_loss` (lines 42-59).  The per-batch loss produced by
masking, the model forward pass and the criterion (lines 49-57) is the
oracle `lossOf`, applied to the batch slice `val_data[i:i+BATCH_SIZE]`.
`BATCH_SIZE` comes from `utils.config` (not in `src/`) and is a parameter;
`batchSize = 0` makes Python `range` raise, hence `none`.  The result
divides the accumulated loss by `len(val_data)`, raising on 0. -/
def evaluate_val_loss (lossOf : List (List ℕ) → ℚ)
    (valData : List (List ℕ)) (batchSize : ℕ) : Option ℚ :=
  if batchSize = 0 then none
  else
    let total := (pyRange valData.length batchSize).foldl
      (fun acc i => acc + lossOf ((valData.drop i).take batchSize)) 0
    pyDiv total valData.length

/-- Python truthiness of an optional string: `if model_name:` is `False`
for `None` and for the empty string. -/
def pyTruthyStr (s : Option String) : Bool :=
  match s with
  | none => false
  | some str => decide (str.length ≠ 0)

/-- The improvement tolerance `1e-4` of line 126 (float literal modelled
as the rational it denotes). -/
def tol : ℚ := 1 / 10000

/-- Mutable loop state of `train_model`: `best_ndcg` (line 81) and
`patience_counter` (line 82). -/
structure TrainState where
  bestNdcg : ℚ
  patienceCounter : ℕ
deriving DecidableEq, Repr

/-- The checkpoint / early-stop decision of lines 126-136, executed once
per epoch.  Returns the updated state, whether `torch.save` ran (only when
the improvement test passes and `model_name` is truthy), and whether the
`break` fires (`patience_counter >= PATIENCE` after the increment). -/
def epochStep (modelName : Option String) (patience : ℕ) (valNdcg : ℚ)
    (st : TrainState) : TrainState × Bool × Bool :=
  if st.bestNdcg + tol < valNdcg then
    (⟨valNdcg, 0⟩, pyTruthyStr modelName, false)
  else
    (⟨st.bestNdcg, st.patienceCounter + 1⟩, false,
      decide (patience ≤ st.patienceCounter + 1))

/-- What one epoch observes from the external collaborators: the training
batch losses of lines 90-104 (model forward + criterion, after shuffling),
the validation loss of line 106, the metrics of lines 107-109 and the
learning rate recorded at the last batch (line 103). -/
structure EpochObs where
  trainBatchLosses : List ℚ
  valLoss : ℚ
  valNdcg : ℚ
  valRecall : ℚ
  lr : ℚ

/-- One record of `history` (lines 113-120). -/
structure LogEntry where
  epoch : ℕ
  train_loss : ℚ
  val_loss : ℚ
  val_ndcg : ℚ
  val_recall : ℚ
  lr : ℚ
deriving DecidableEq, Repr

/-- Default entry used as the `getD` fallback in index statements. -/
def defaultEntry : LogEntry := ⟨0, 0, 0, 0, 0, 0⟩

/-- Outcome of a training run: the history list, the final loop state,
whether early stopping fired, and the epochs in which `torch.save` wrote
the checkpoint. -/
structure RunResult where
  history : List LogEntry
  finalState : TrainState
  earlyStopped : Bool
  savedEpochs : List ℕ
deriving DecidableEq, Repr

/-- The epoch loop of `train_model` (lines 84-136).  `remaining` is the
number of epochs still allowed, `epoch` the 1-based index of the next one.
Each epoch: accumulate the batch losses (line 102), divide by
`len(train_data)` for the history record (line 115, raising when
`nTrain = 0`), append the record (line 121), then run the decision of
lines 126-136; `break` truncates the run. -/
def trainLoop (obs : ℕ → EpochObs) (modelName : Option String)
    (patience nTrain : ℕ) : ℕ → ℕ → TrainState → Option RunResult
  | 0, _, st => some ⟨[], st, false, []⟩
  | remaining + 1, epoch, st =>
    let o := obs epoch
    match pyDiv (o.trainBatchLosses.foldl (fun a b => a + b) 0) (nTrain : ℚ) with
    | none => none
    | some tl =>
      let entry : LogEntry := ⟨epoch, tl, o.valLoss, o.valNdcg, o.valRecall, o.lr⟩
      let step := epochStep modelName patience o.valNdcg st
      let saves : List ℕ := if step.2.1 then [epoch] else []
      if step.2.2 then some ⟨[entry], step.1, true, saves⟩
      else
        match trainLoop obs modelName patience nTrain remaining (epoch + 1) step.1 with
        | none => none
        | some r =>
          some ⟨entry :: r.history, r.finalState, r.earlyStopped, saves ++ r.savedEpochs⟩

/-- `train_model` (lines 61-142): run the epoch loop from epoch 1 with
`best_ndcg = 0.0`, `patience_counter = 0`.  `PATIENCE` comes from
`utils.config` (not in `src/`) and is a parameter; `nTrain` is
`len(train_data)`. -/
def train_model (obs : ℕ → EpochObs) (modelName : Option String)
    (patience nTrain epochs : ℕ) : Option RunResult :=
  trainLoop obs modelName patience nTrain epochs 1 ⟨0, 0⟩

/-- The processed-data directory as seen by `load_processed_data`: the
contents of `train_seqs.pkl`, `val_seqs.pkl`, `test_seqs.pkl`, with `none`
for a missing file (Python `open` raises FileNotFoundError). -/
structure ProcessedDir where
  trainFileContents : Option (List (List ℕ))
  valFileContents : Option (List (List ℕ))
  testFileContents : Option (List (List ℕ))

/-- Python `max(collection)`: raises (`none`) on an empty collection.
Line 153 applies it to a set; taking the maximum of the item list is the
same value, since deduplication does not change the maximum. -/
def pyMax (l : List ℕ) : Option ℕ :=
  match l with
  | [] => none
  | x :: xs => some (xs.foldl max x)

/-- `load_processed_data` (lines 144-155): read the three pickles, gather
every non-zero item of the union (line 152) and take the maximum as
`num_items` (line 153). -/
def load_processed_data (d : ProcessedDir) :
    Option (List (List ℕ) × List (List ℕ) × List (List ℕ) × ℕ) :=
  match d.trainFileContents, d.valFileContents, d.testFileContents with
  | some trainSeqs, some valSeqs, some testSeqs =>
    match pyMax (((trainSeqs ++ valSeqs ++ testSeqs).flatten).filter (fun x => x ≠ 0)) with
    | none => none
    | some numItems => some (trainSeqs, valSeqs, testSeqs, numItems)
  | _, _, _ => none

/-! ## Basic lemmas about padding and masking -/

/-- For a positive target length, `pad_sequence` always returns exactly
`maxLen` entries. -/
theorem pad_sequence_length (s : List ℕ) (maxLen : ℕ) (h : 0 < maxLen) :
    (pad_sequence s maxLen).length = maxLen := by
  unfold pad_sequence pySliceLast
  by_cases hle : maxLen ≤ s.length
  · rw [if_pos hle, if_neg (by omega)]
    simp
    omega
  · rw [if_neg hle]
    simp
    omega

/-- Masking preserves the shape: masked sequence and labels have the same
length as the input. -/
theorem maskSeq_length (g : ℕ → ℚ) (p : ℚ) (m : ℕ) :
    ∀ (l : List ℕ) (idx : ℕ),
      (maskSeq g p m l idx).1.length = l.length ∧
      (maskSeq g p m l idx).2.1.length = l.length
  | [], _ => by simp [maskSeq]
  | item :: rest, idx => by
    by_cases h0 : item = 0
    · simpa [maskSeq, h0] using maskSeq_length g p m rest idx
    · by_cases hr : g idx < p
      · simpa [maskSeq, h0, hr] using maskSeq_length g p m rest (idx + 1)
      · simpa [maskSeq, h0, hr] using maskSeq_length g p m rest (idx + 1)

/-- Per-position dichotomy of the inner masking loop: a position is either
masked (output `maskId`, label the original non-zero item) or untouched
(output the original value, label 0). -/
theorem maskSeq_invariant (g : ℕ → ℚ) (p : ℚ) (m : ℕ) :
    ∀ (l : List ℕ) (idx pos : ℕ), pos < l.length →
      ((maskSeq g p m l idx).1.getD pos 0 = m ∧
       (maskSeq g p m l idx).2.1.getD pos 0 = l.getD pos 0 ∧ l.getD pos 0 ≠ 0) ∨
      ((maskSeq g p m l idx).1.getD pos 0 = l.getD pos 0 ∧
       (maskSeq g p m l idx).2.1.getD pos 0 = 0)
  | [], _, pos, h => absurd h (by simp)
  | item :: rest, idx, pos, h => by
    by_cases h0 : item = 0
    · cases pos with
      | zero => right; simp [maskSeq, h0]
      | succ q =>
        have ih := maskSeq_invariant g p m rest idx q (by simpa using h)
        simpa [maskSeq, h0] using ih
    · by_cases hr : g idx < p
      · cases pos with
        | zero => left; simp [maskSeq, h0, hr]
        | succ q =>
          have ih := maskSeq_invariant g p m rest (idx + 1) q (by simpa using h)
          simpa [maskSeq, h0, hr] using ih
      · cases pos with
        | zero => right; simp [maskSeq, h0, hr]
        | succ q =>
          have ih := maskSeq_invariant g p m rest (idx + 1) q (by simpa using h)
          simpa [maskSeq, h0, hr] using ih

/-- Each row of the `mask_items` output is the inner loop applied to the
padded row, at some cursor position of the random stream. -/
theorem mask_items_get (g : ℕ → ℚ) (numItems : ℕ) (p : ℚ) (seqLen : ℕ) :
    ∀ (seqs : List (List ℕ)) (idx si : ℕ), si < seqs.length →
      ∃ j, (mask_items g seqs numItems p seqLen idx).1.getD si [] =
             (maskSeq g p (numItems + 1) (pad_sequence (seqs.getD si []) seqLen) j).1 ∧
           (mask_items g seqs numItems p seqLen idx).2.1.getD si [] =
             (maskSeq g p (numItems + 1) (pad_sequence (seqs.getD si []) seqLen) j).2.1
  | [], _, si, h => absurd h (by simp)
  | s :: rest, idx, 0, _ => ⟨idx, by simp [mask_items], by simp [mask_items]⟩
  | s :: rest, idx, si + 1, h => by
    obtain ⟨j, h1, h2⟩ := mask_items_get g numItems p seqLen rest
      (maskSeq g p (numItems + 1) (pad_sequence s seqLen) idx).2.2 si (by simpa using h)
    exact ⟨j, by simpa [mask_items] using h1, by simpa [mask_items] using h2⟩

/-- Claim C1: for every batch, vocabulary size `num_items ≥ 1`, masking
probability in `[0,1]` and positive `seq_len`, every position of the
`mask_items` output satisfies: either the masked input is
`MASK_ID = num_items + 1`, the label is the original padded item and that
item is non-zero, or the masked input is the original padded value and the
label is 0; in particular a position whose padded value is 0 keeps masked
input 0 and label 0. -/
theorem mask_items_invariant (g : ℕ → ℚ) (seqs : List (List ℕ)) (numItems : ℕ)
    (p : ℚ) (seqLen idx si pos : ℕ)
    (hn : 1 ≤ numItems) (hp0 : 0 ≤ p) (hp1 : p ≤ 1) (hL : 0 < seqLen)
    (hsi : si < seqs.length) (hpos : pos < seqLen) :
    ((((mask_items g seqs numItems p seqLen idx).1.getD si []).getD pos 0 = numItems + 1 ∧
      ((mask_items g seqs numItems p seqLen idx).2.1.getD si []).getD pos 0 =
        (pad_sequence (seqs.getD si []) seqLen).getD pos 0 ∧
      (pad_sequence (seqs.getD si []) seqLen).getD pos 0 ≠ 0) ∨
     ((((mask_items g seqs numItems p seqLen idx).1.getD si []).getD pos 0 =
        (pad_sequence (seqs.getD si []) seqLen).getD pos 0) ∧
      ((mask_items g seqs numItems p seqLen idx).2.1.getD si []).getD pos 0 = 0)) ∧
    ((pad_sequence (seqs.getD si []) seqLen).getD pos 0 = 0 →
      (((mask_items g seqs numItems p seqLen idx).1.getD si []).getD pos 0 = 0 ∧
       ((mask_items g seqs numItems p seqLen idx).2.1.getD si []).getD pos 0 = 0)) := by
  obtain ⟨j, h1, h2⟩ := mask_items_get g numItems p seqLen seqs idx si hsi
  have hlen : (pad_sequence (seqs.getD si []) seqLen).length = seqLen :=
    pad_sequence_length _ _ hL
  have hinv := maskSeq_invariant g p (numItems + 1)
    (pad_sequence (seqs.getD si []) seqLen) j pos (by omega)
  rw [h1, h2]
  refine ⟨hinv, fun hz => ?_⟩
  rcases hinv with ⟨hm, hl, hnz⟩ | ⟨hm, hl⟩
  · exact absurd hz hnz
  · exact ⟨by rw [hm, hz], hl⟩

/-- Concrete instance of Claim C1 with probability 1/2 and the stream
constantly 1/2 (so the position is not masked). -/
theorem mask_items_invariant_witness :
    ((((mask_items (fun _ => (1 : ℚ) / 2) [[1, 2, 3]] 6 ((1 : ℚ) / 2) 5 0).1.getD 0 []).getD 4 0 = 6 + 1 ∧
      ((mask_items (fun _ => (1 : ℚ) / 2) [[1, 2, 3]] 6 ((1 : ℚ) / 2) 5 0).2.1.getD 0 []).getD 4 0 =
        (pad_sequence ([[1, 2, 3]].getD 0 []) 5).getD 4 0 ∧
      (pad_sequence ([[1, 2, 3]].getD 0 []) 5).getD 4 0 ≠ 0) ∨
     ((((mask_items (fun _ => (1 : ℚ) / 2) [[1, 2, 3]] 6 ((1 : ℚ) / 2) 5 0).1.getD 0 []).getD 4 0 =
        (pad_sequence ([[1, 2, 3]].getD 0 []) 5).getD 4 0) ∧
      ((mask_items (fun _ => (1 : ℚ) / 2) [[1, 2, 3]] 6 ((1 : ℚ) / 2) 5 0).2.1.getD 0 []).getD 4 0 = 0)) ∧
    ((pad_sequence ([[1, 2, 3]].getD 0 []) 5).getD 4 0 = 0 →
      ((((mask_items (fun _ => (1 : ℚ) / 2) [[1, 2, 3]] 6 ((1 : ℚ) / 2) 5 0).1.getD 0 []).getD 4 0 = 0 ∧
       ((mask_items (fun _ => (1 : ℚ) / 2) [[1, 2, 3]] 6 ((1 : ℚ) / 2) 5 0).2.1.getD 0 []).getD 4 0 = 0))) :=
  mask_items_invariant (fun _ => (1 : ℚ) / 2) [[1, 2, 3]] 6 ((1 : ℚ) / 2) 5 0 0 4
    (by norm_num) (by norm_num) (by norm_num) (by norm_num) (by norm_num) (by norm_num)

/-- Claim C2: padding behaviour of `pad_sequence`.  A sequence no longer
than `max_len` is returned left-padded with zeros to exactly `max_len`
entries; a longer sequence is truncated to its last `max_len` elements. -/
theorem pad_sequence_spec (s : List ℕ) (maxLen : ℕ) (h : 0 < maxLen) :
    (s.length ≤ maxLen →
      pad_sequence s maxLen = List.replicate (maxLen - s.length) 0 ++ s ∧
      (pad_sequence s maxLen).length = maxLen) ∧
    (maxLen < s.length →
      pad_sequence s maxLen = s.drop (s.length - maxLen)) := by
  constructor
  · intro hle
    refine ⟨?_, pad_sequence_length s maxLen h⟩
    unfold pad_sequence pySliceLast
    by_cases heq : maxLen ≤ s.length
    · have hlen : s.length = maxLen := le_antisymm hle heq
      rw [if_pos heq, if_neg (by omega)]
      simp [hlen]
    · rw [if_neg heq]
  · intro hgt
    unfold pad_sequence pySliceLast
    rw [if_pos (by omega), if_neg (by omega)]

/-- Concrete instance of Claim C2 at both branches: `[1,2,3]` padded to
length 5, and `[1,2,3,4,5,6]` truncated to length 4. -/
theorem pad_sequence_spec_witness :
    (pad_sequence [1, 2, 3] 5 = List.replicate (5 - [1, 2, 3].length) 0 ++ [1, 2, 3] ∧
      (pad_sequence [1, 2, 3] 5).length = 5) ∧
    pad_sequence [1, 2, 3, 4, 5, 6] 4 =
      [1, 2, 3, 4, 5, 6].drop ([1, 2, 3, 4, 5, 6].length - 4) :=
  ⟨(pad_sequence_spec [1, 2, 3] 5 (by norm_num)).1 (by norm_num),
   (pad_sequence_spec [1, 2, 3, 4, 5, 6] 4 (by norm_num)).2 (by norm_num)⟩

/-! ## Masking at the extreme probabilities -/

/-- With probability 0 (and non-negative draws, as `random.random()`
guarantees) the inner loop masks nothing and labels everything 0. -/
theorem maskSeq_zero_prob (g : ℕ → ℚ) (m : ℕ) (hg : ∀ i, 0 ≤ g i) :
    ∀ (l : List ℕ) (idx : ℕ),
      (maskSeq g 0 m l idx).1 = l ∧
      (maskSeq g 0 m l idx).2.1 = List.replicate l.length 0
  | [], _ => by simp [maskSeq]
  | item :: rest, idx => by
    have hni : ¬ g idx < 0 := not_lt.2 (hg idx)
    by_cases h0 : item = 0
    · simpa [maskSeq, h0, List.replicate_succ] using maskSeq_zero_prob g m hg rest idx
    · simpa [maskSeq, h0, hni, List.replicate_succ] using
        maskSeq_zero_prob g m hg rest (idx + 1)

/-- With probability 1 (and draws below 1, as `random.random()`
guarantees) every non-zero position is masked and the labels reproduce the
padded row. -/
theorem maskSeq_one_prob (g : ℕ → ℚ) (m : ℕ) (hg : ∀ i, g i < 1) :
    ∀ (l : List ℕ) (idx : ℕ),
      (maskSeq g 1 m l idx).1 = l.map (fun x => if x = 0 then x else m) ∧
      (maskSeq g 1 m l idx).2.1 = l
  | [], _ => by simp [maskSeq]
  | item :: rest, idx => by
    by_cases h0 : item = 0
    · simpa [maskSeq, h0] using maskSeq_one_prob g m hg rest idx
    · simpa [maskSeq, h0, hg idx] using maskSeq_one_prob g m hg rest (idx + 1)

/-- Batch version of `maskSeq_zero_prob`. -/
theorem mask_items_zero_prob (g : ℕ → ℚ) (numItems seqLen : ℕ) (hg : ∀ i, 0 ≤ g i) :
    ∀ (seqs : List (List ℕ)) (idx : ℕ),
      (mask_items g seqs numItems 0 seqLen idx).1 =
        seqs.map (fun s => pad_sequence s seqLen) ∧
      (mask_items g seqs numItems 0 seqLen idx).2.1 =
        seqs.map (fun s => List.replicate (pad_sequence s seqLen).length 0)
  | [], _ => by simp [mask_items]
  | s :: rest, idx => by
    have hh := maskSeq_zero_prob g (numItems + 1) hg (pad_sequence s seqLen) idx
    have ht := mask_items_zero_prob g numItems seqLen hg rest
      (maskSeq g 0 (numItems + 1) (pad_sequence s seqLen) idx).2.2
    simp [mask_items, hh.1, hh.2, ht.1, ht.2]

/-- Batch version of `maskSeq_one_prob`. -/
theorem mask_items_one_prob (g : ℕ → ℚ) (numItems seqLen : ℕ) (hg : ∀ i, g i < 1) :
    ∀ (seqs : List (List ℕ)) (idx : ℕ),
      (mask_items g seqs numItems 1 seqLen idx).1 =
        seqs.map (fun s => (pad_sequence s seqLen).map
          (fun x => if x = 0 then x else numItems + 1)) ∧
      (mask_items g seqs numItems 1 seqLen idx).2.1 =
        seqs.map (fun s => pad_sequence s seqLen)
  | [], _ => by simp [mask_items]
  | s :: rest, idx => by
    have hh := maskSeq_one_prob g (numItems + 1) hg (pad_sequence s seqLen) idx
    have ht := mask_items_one_prob g numItems seqLen hg rest
      (maskSeq g 1 (numItems + 1) (pad_sequence s seqLen) idx).2.2
    simp [mask_items, hh.1, hh.2, ht.1, ht.2]

/-- Claim C5: with `mask_prob = 0` no position is masked (the masked
inputs are exactly the padded sequences) and all labels are 0; with
`mask_prob = 1` every non-zero padded position becomes `MASK_ID` and the
labels reproduce the padded sequences (original item at masked positions,
0 at padding).  The hypothesis states the contract of `random.random()`:
every draw lies in `[0, 1)`. -/
theorem mask_prob_extremes (g : ℕ → ℚ) (seqs : List (List ℕ))
    (numItems seqLen idx : ℕ) (hg : ∀ i, 0 ≤ g i ∧ g i < 1) :
    (mask_items g seqs numItems 0 seqLen idx).1 =
      seqs.map (fun s => pad_sequence s seqLen) ∧
    (mask_items g seqs numItems 0 seqLen idx).2.1 =
      seqs.map (fun s => List.replicate (pad_sequence s seqLen).length 0) ∧
    (mask_items g seqs numItems 1 seqLen idx).1 =
      seqs.map (fun s => (pad_sequence s seqLen).map
        (fun x => if x = 0 then x else numItems + 1)) ∧
    (mask_items g seqs numItems 1 seqLen idx).2.1 =
      seqs.map (fun s => pad_sequence s seqLen) := by
  have h0 := mask_items_zero_prob g numItems seqLen (fun i => (hg i).1) seqs idx
  have h1 := mask_items_one_prob g numItems seqLen (fun i => (hg i).2) seqs idx
  exact ⟨h0.1, h0.2, h1.1, h1.2⟩

/-- Concrete instance of Claim C5: the end-to-end scenario of the spec
(`[1,2,3]`, `[4,5]`, `[6]` at `seq_len = 5`, `num_items = 6`). -/
theorem mask_prob_extremes_witness :
    (mask_items (fun _ => (1 : ℚ) / 2) [[1, 2, 3], [4, 5], [6]] 6 0 5 0).1 =
      [[0, 0, 1, 2, 3], [0, 0, 0, 4, 5], [0, 0, 0, 0, 6]] ∧
    (mask_items (fun _ => (1 : ℚ) / 2) [[1, 2, 3], [4, 5], [6]] 6 0 5 0).2.1 =
      [[0, 0, 0, 0, 0], [0, 0, 0, 0, 0], [0, 0, 0, 0, 0]] ∧
    (mask_items (fun _ => (1 : ℚ) / 2) [[1, 2, 3], [4, 5], [6]] 6 1 5 0).1 =
      [[0, 0, 7, 7, 7], [0, 0, 0, 7, 7], [0, 0, 0, 0, 7]] ∧
    (mask_items (fun _ => (1 : ℚ) / 2) [[1, 2, 3], [4, 5], [6]] 6 1 5 0).2.1 =
      [[0, 0, 1, 2, 3], [0, 0, 0, 4, 5], [0, 0, 0, 0, 6]] := by
  have h := mask_prob_extremes (fun _ => (1 : ℚ) / 2) [[1, 2, 3], [4, 5], [6]] 6 5 0
    (fun i => by norm_num)
  refine ⟨?_, ?_, ?_, ?_⟩
  · rw [h.1]; rfl
  · rw [h.2.1]; rfl
  · rw [h.2.2.1]; rfl
  · rw [h.2.2.2]; rfl

/-! ## The checkpoint / early-stop decision -/

/-- Nonzero natural denominators make `pyDiv` succeed with the usual
quotient. -/
theorem pyDiv_cast (a : ℚ) (n : ℕ) (h : n ≠ 0) :
    pyDiv a (n : ℚ) = some (a / (n : ℚ)) := by
  unfold pyDiv
  rw [if_neg (by exact_mod_cast h)]

/-- Claim C3: in every epoch (one execution of the decision of lines
126-136, with a truthy checkpoint name) the checkpoint is written if and
only if `val_ndcg` strictly exceeds `best_ndcg + 1e-4`; on improvement the
best value becomes `val_ndcg` and the stall counter resets to 0, otherwise
nothing is written and the stall counter increments by 1. -/
theorem checkpoint_iff_improvement (modelName : Option String) (patience : ℕ)
    (valNdcg : ℚ) (st : TrainState) (hname : pyTruthyStr modelName = true) :
    ((epochStep modelName patience valNdcg st).2.1 = true ↔
      st.bestNdcg + tol < valNdcg) ∧
    (st.bestNdcg + tol < valNdcg →
      (epochStep modelName patience valNdcg st).1 = ⟨valNdcg, 0⟩) ∧
    (¬ st.bestNdcg + tol < valNdcg →
      (epochStep modelName patience valNdcg st).2.1 = false ∧
      (epochStep modelName patience valNdcg st).1 =
        ⟨st.bestNdcg, st.patienceCounter + 1⟩) := by
  unfold epochStep
  by_cases h : st.bestNdcg + tol < valNdcg
  · simp [h, hname]
  · simp [h]

/-- A concrete checkpoint file name for the instances below. -/
def ckptName : String := (r"bert4rec.pt")

/-- Concrete instance of Claim C3: from best 0 and counter 0, an NDCG of
1/2 is written (1/2 > 0 + 1e-4) and the state resets. -/
theorem checkpoint_iff_improvement_witness :
    ((epochStep (some ckptName) 3 ((1 : ℚ) / 2) ⟨0, 0⟩).2.1 = true ↔
      (TrainState.mk 0 0).bestNdcg + tol < (1 : ℚ) / 2) ∧
    ((TrainState.mk 0 0).bestNdcg + tol < (1 : ℚ) / 2 →
      (epochStep (some ckptName) 3 ((1 : ℚ) / 2) ⟨0, 0⟩).1 = ⟨(1 : ℚ) / 2, 0⟩) ∧
    (¬ (TrainState.mk 0 0).bestNdcg + tol < (1 : ℚ) / 2 →
      (epochStep (some ckptName) 3 ((1 : ℚ) / 2) ⟨0, 0⟩).2.1 = false ∧
      (epochStep (some ckptName) 3 ((1 : ℚ) / 2) ⟨0, 0⟩).1 =
        ⟨(TrainState.mk 0 0).bestNdcg, (TrainState.mk 0 0).patienceCounter + 1⟩) :=
  checkpoint_iff_improvement (some ckptName) 3 ((1 : ℚ) / 2) ⟨0, 0⟩ (by decide)

/-! ## Invariants of the epoch loop -/

/-- History produced by the loop: at most `remaining` records, with epoch
indices counting up from the starting epoch without gaps. -/
theorem trainLoop_history (obs : ℕ → EpochObs) (modelName : Option String)
    (patience nTrain : ℕ) :
    ∀ (remaining epoch : ℕ) (st : TrainState) (r : RunResult),
      trainLoop obs modelName patience nTrain remaining epoch st = some r →
      r.history.length ≤ remaining ∧
      ∀ i, i < r.history.length →
        (r.history.getD i defaultEntry).epoch = epoch + i
  | 0, epoch, st, r, h => by
    simp only [trainLoop, Option.some.injEq] at h
    subst h
    simp
  | remaining + 1, epoch, st, r, h => by
    simp only [trainLoop] at h
    split at h
    · exact absurd h (by simp)
    · split at h
      · replace h := (Option.some.injEq _ _).mp h
        subst h
        refine ⟨by simp, ?_⟩
        intro i hi
        simp only [List.length_cons, List.length_nil] at hi
        interval_cases i
        simp
      · split at h
        · exact absurd h (by simp)
        · next r2 hrec =>
          replace h := (Option.some.injEq _ _).mp h
          subst h
          obtain ⟨hlen, hep⟩ :=
            trainLoop_history obs modelName patience nTrain remaining (epoch + 1) _ r2 hrec
          refine ⟨by simpa using Nat.succ_le_succ hlen, ?_⟩
          intro i hi
          cases i with
          | zero => simp
          | succ j =>
            simp only [List.length_cons] at hi
            have hj := hep j (by omega)
            simp only [List.getD_cons_succ]
            rw [hj]
            omega

/-- Claim C7: the history returned by `train_model` has one record per
epoch actually executed — at most the configured maximum — and its epoch
indices increase by exactly 1 from 1 with no gaps. -/
theorem history_epochs_contiguous (obs : ℕ → EpochObs) (modelName : Option String)
    (patience nTrain epochs : ℕ) (r : RunResult)
    (h : train_model obs modelName patience nTrain epochs = some r) :
    r.history.length ≤ epochs ∧
    ∀ i, i < r.history.length →
      (r.history.getD i defaultEntry).epoch = i + 1 := by
  obtain ⟨hlen, hep⟩ := trainLoop_history obs modelName patience nTrain epochs 1 ⟨0, 0⟩ r h
  refine ⟨hlen, fun i hi => ?_⟩
  rw [hep i hi]
  omega

/-- Constant per-epoch observations (no NDCG improvement ever): one
training batch of loss 1, all validation statistics 0. -/
def demoObs : ℕ → EpochObs := fun _ => ⟨[1], 0, 0, 0, 0⟩

/-- The run of `demoObs` with patience 2, one training sequence and an
epoch budget of 5: it stalls twice and stops early after epoch 2. -/
def demoRun : RunResult :=
  ⟨[⟨1, 1, 0, 0, 0, 0⟩, ⟨2, 1, 0, 0, 0, 0⟩], ⟨0, 2⟩, true, []⟩

/-- The `demoObs` run above, computed: `train_model demoObs none 2 1 5`
stalls twice and stops early after epoch 2. -/
theorem demo_run_eval : train_model demoObs none 2 1 5 = some demoRun := by
  simp [train_model, trainLoop, epochStep, pyDiv, tol, demoObs, demoRun, pyTruthyStr]
  norm_num

/-- Concrete instance of Claim C7 on the `demoObs` run. -/
theorem history_epochs_contiguous_witness :
    demoRun.history.length ≤ 5 ∧
    (demoRun.history.getD 1 defaultEntry).epoch = 1 + 1 := by
  have h := history_epochs_contiguous demoObs none 2 1 5 demoRun demo_run_eval
  exact ⟨h.1, h.2 1 (by norm_num [demoRun])⟩

/-- Patience invariant of the loop: starting below the patience bound,
the run stops early exactly when the stall counter reaches (never
overshoots) the bound, and otherwise executes every remaining epoch. -/
theorem trainLoop_patience (obs : ℕ → EpochObs) (modelName : Option String)
    (patience nTrain : ℕ) (hpat : 1 ≤ patience) :
    ∀ (remaining epoch : ℕ) (st : TrainState) (r : RunResult),
      st.patienceCounter < patience →
      trainLoop obs modelName patience nTrain remaining epoch st = some r →
      (r.earlyStopped = true ↔ r.finalState.patienceCounter = patience) ∧
      r.finalState.patienceCounter ≤ patience ∧
      (r.earlyStopped = false → r.history.length = remaining)
  | 0, epoch, st, r, hst, h => by
    simp only [trainLoop, Option.some.injEq] at h
    subst h
    refine ⟨by simp; omega, by simp; omega, by simp⟩
  | remaining + 1, epoch, st, r, hst, h => by
    simp only [trainLoop] at h
    split at h
    · exact absurd h (by simp)
    · by_cases himp : st.bestNdcg + tol < (obs epoch).valNdcg
      · have hstep : epochStep modelName patience (obs epoch).valNdcg st =
            (⟨(obs epoch).valNdcg, 0⟩, pyTruthyStr modelName, false) := by
          unfold epochStep
          rw [if_pos himp]
        rw [hstep] at h
        simp only [Bool.false_eq_true, if_false] at h
        split at h
        · exact absurd h (by simp)
        · next r2 hrec =>
          replace h := (Option.some.injEq _ _).mp h
          subst h
          obtain ⟨hiff, hle, hlen⟩ := trainLoop_patience obs modelName patience nTrain hpat
            remaining (epoch + 1) ⟨(obs epoch).valNdcg, 0⟩ r2 (by simpa using hpat) hrec
          exact ⟨hiff, hle, fun he => by simp [hlen he]⟩
      · have hstep : epochStep modelName patience (obs epoch).valNdcg st =
            (⟨st.bestNdcg, st.patienceCounter + 1⟩, false,
              decide (patience ≤ st.patienceCounter + 1)) := by
          unfold epochStep
          rw [if_neg himp]
        rw [hstep] at h
        by_cases hreach : patience ≤ st.patienceCounter + 1
        · have heq : st.patienceCounter + 1 = patience := by omega
          simp only [decide_eq_true_eq, hreach, if_true, Bool.false_eq_true, if_false,
            Option.some.injEq] at h
          subst h
          refine ⟨by simpa using heq, by simp; omega, by simp⟩
        · simp only [decide_eq_true_eq, hreach, if_false] at h
          split at h
          · exact absurd h (by simp)
          · next r2 hrec =>
            replace h := (Option.some.injEq _ _).mp h
            subst h
            obtain ⟨hiff, hle, hlen⟩ := trainLoop_patience obs modelName patience nTrain hpat
              remaining (epoch + 1) ⟨st.bestNdcg, st.patienceCounter + 1⟩ r2
              (by simp; omega) hrec
            exact ⟨hiff, hle, fun he => by simp [hlen he]⟩

/-- Claim C4: with a positive patience setting, early stopping fires
exactly when the stall counter reaches the configured patience — never
while the counter is below it (on stopping the counter equals patience
exactly, and it never exceeds it) — and a run that does not stop early
executes every configured epoch. -/
theorem early_stop_at_patience (obs : ℕ → EpochObs) (modelName : Option String)
    (patience nTrain epochs : ℕ) (r : RunResult) (hpat : 1 ≤ patience)
    (h : train_model obs modelName patience nTrain epochs = some r) :
    (r.earlyStopped = true ↔ r.finalState.patienceCounter = patience) ∧
    r.finalState.patienceCounter ≤ patience ∧
    (r.earlyStopped = false → r.history.length = epochs) :=
  trainLoop_patience obs modelName patience nTrain hpat epochs 1 ⟨0, 0⟩ r
    (by simpa using hpat) h

/-- Concrete instance of Claim C4: the `demoObs` run stalls in epochs 1
and 2 and stops early in epoch 2, where the counter reaches patience 2,
discarding epochs 3-5. -/
theorem early_stop_at_patience_witness :
    (demoRun.earlyStopped = true ↔ demoRun.finalState.patienceCounter = 2) ∧
    demoRun.finalState.patienceCounter ≤ 2 ∧
    (demoRun.earlyStopped = false → demoRun.history.length = 5) :=
  early_stop_at_patience demoObs none 2 1 5 demoRun (by norm_num) demo_run_eval

/-! ## Loss accumulation and normalization -/

/-- Left-folded accumulation (`total += loss`) equals the list sum. -/
theorem foldl_add_sum {α : Type} (f : α → ℚ) :
    ∀ (l : List α) (a : ℚ),
      l.foldl (fun acc x => acc + f x) a = a + (l.map f).sum
  | [], a => by simp
  | x :: xs, a => by
    rw [List.foldl_cons, foldl_add_sum f xs (a + f x)]
    simp [add_assoc]

/-- Every history record produced by the loop carries as `train_loss` the
sum of that epoch's batch losses divided by the number of training
sequences. -/
theorem trainLoop_train_loss (obs : ℕ → EpochObs) (modelName : Option String)
    (patience nTrain : ℕ) :
    ∀ (remaining epoch : ℕ) (st : TrainState) (r : RunResult),
      trainLoop obs modelName patience nTrain remaining epoch st = some r →
      ∀ i, i < r.history.length →
        (r.history.getD i defaultEntry).train_loss =
          ((obs ((r.history.getD i defaultEntry).epoch)).trainBatchLosses).sum / (nTrain : ℚ)
  | 0, epoch, st, r, h => by
    simp only [trainLoop, Option.some.injEq] at h
    subst h
    simp
  | remaining + 1, epoch, st, r, h => by
    simp only [trainLoop] at h
    split at h
    · exact absurd h (by simp)
    · next tl heq =>
      have htl : tl = ((obs epoch).trainBatchLosses).sum / (nTrain : ℚ) := by
        unfold pyDiv at heq
        by_cases hz : (nTrain : ℚ) = 0
        · rw [if_pos hz] at heq
          exact absurd heq (by simp)
        · rw [if_neg hz] at heq
          replace heq := (Option.some.injEq _ _).mp heq
          rw [← heq, foldl_add_sum (fun x => x)]
          simp
      split at h
      · replace h := (Option.some.injEq _ _).mp h
        subst h
        intro i hi
        simp only [List.length_cons, List.length_nil] at hi
        interval_cases i
        simpa using htl
      · split at h
        · exact absurd h (by simp)
        · next r2 hrec =>
          replace h := (Option.some.injEq _ _).mp h
          subst h
          intro i hi
          cases i with
          | zero => simpa using htl
          | succ j =>
            simp only [List.length_cons] at hi
            simpa using trainLoop_train_loss obs modelName patience nTrain
              remaining (epoch + 1) _ r2 hrec j (by omega)

/-- Claim C6: `evaluate_val_loss` returns the sum of the per-batch losses
divided by the number of sequences in the dataset (not by the number of
batches), and each per-epoch `train_loss` recorded in the history is the
sum of that epoch's training batch losses divided by the number of
training sequences. -/
theorem loss_normalization (lossOf : List (List ℕ) → ℚ) (valData : List (List ℕ))
    (batchSize : ℕ) (obs : ℕ → EpochObs) (modelName : Option String)
    (patience nTrain epochs : ℕ) (r : RunResult)
    (hbs : batchSize ≠ 0) (hval : valData ≠ [])
    (h : train_model obs modelName patience nTrain epochs = some r) :
    evaluate_val_loss lossOf valData batchSize =
      some (((pyRange valData.length batchSize).map
        (fun i => lossOf ((valData.drop i).take batchSize))).sum / (valData.length : ℚ)) ∧
    ∀ i, i < r.history.length →
      (r.history.getD i defaultEntry).train_loss =
        ((obs ((r.history.getD i defaultEntry).epoch)).trainBatchLosses).sum / (nTrain : ℚ) := by
  constructor
  · unfold evaluate_val_loss
    rw [if_neg hbs, foldl_add_sum]
    have hlen : valData.length ≠ 0 := by simpa using hval
    rw [pyDiv_cast _ _ hlen]
    simp
  · exact trainLoop_train_loss obs modelName patience nTrain epochs 1 ⟨0, 0⟩ r h

/-- Concrete instance of Claim C6: three validation sequences in batches
of 2 (losses 2 and 1 via a length oracle) average to (2+1)/3 = 1, and the
first `demoObs` history record has train loss 1/1 = 1. -/
theorem loss_normalization_witness :
    evaluate_val_loss (fun b => (b.length : ℚ)) [[1], [2], [3]] 2 = some 1 ∧
    (demoRun.history.getD 0 defaultEntry).train_loss =
      ((demoObs ((demoRun.history.getD 0 defaultEntry).epoch)).trainBatchLosses).sum / ((1 : ℕ) : ℚ) := by
  have h := loss_normalization (fun b => (b.length : ℚ)) [[1], [2], [3]] 2
    demoObs none 2 1 5 demoRun (by norm_num) (by simp) demo_run_eval
  constructor
  · rw [h.1]
    norm_num [pyRange, List.range_succ]
  · exact h.2 0 (by norm_num [demoRun])

/-- Claim C10: `evaluate_val_loss` on an empty dataset never returns an
average loss — the final division `total_loss / len(val_data)` is a
division by zero, so the call raises; with a positive batch size and a
non-empty dataset the function is total. -/
theorem evaluate_val_loss_empty (lossOf : List (List ℕ) → ℚ) (batchSize : ℕ)
    (valData : List (List ℕ)) :
    evaluate_val_loss lossOf [] batchSize = none ∧
    (batchSize ≠ 0 → valData ≠ [] →
      ∃ q, evaluate_val_loss lossOf valData batchSize = some q) := by
  constructor
  · unfold evaluate_val_loss
    by_cases hbs : batchSize = 0
    · rw [if_pos hbs]
    · rw [if_neg hbs]
      unfold pyDiv
      simp
  · intro hbs hval
    unfold evaluate_val_loss
    rw [if_neg hbs]
    have hlen : valData.length ≠ 0 := by simpa using hval
    rw [pyDiv_cast _ _ hlen]
    exact ⟨_, rfl⟩

/-- Concrete instance of Claim C10: the empty dataset raises, one
non-empty sequence with batch size 2 succeeds. -/
theorem evaluate_val_loss_empty_witness :
    evaluate_val_loss (fun _ => (0 : ℚ)) [] 2 = none ∧
    ∃ q, evaluate_val_loss (fun _ => (0 : ℚ)) [[1]] 2 = some q := by
  have h1 := evaluate_val_loss_empty (fun _ => (0 : ℚ)) 2 [[1]]
  exact ⟨h1.1, h1.2 (by norm_num) (by simp)⟩

/-! ## The checkpoint name does not influence the run -/

/-- The updated state and the stop flag of the per-epoch decision do not
depend on the checkpoint name (it only gates the `torch.save`). -/
theorem epochStep_name_indep (mn1 mn2 : Option String) (patience : ℕ)
    (v : ℚ) (st : TrainState) :
    (epochStep mn1 patience v st).1 = (epochStep mn2 patience v st).1 ∧
    (epochStep mn1 patience v st).2.2 = (epochStep mn2 patience v st).2.2 := by
  unfold epochStep
  by_cases h : st.bestNdcg + tol < v <;> simp [h]

/-- With `model_name = None` the save flag of the decision is never set. -/
theorem epochStep_none_no_save (patience : ℕ) (v : ℚ) (st : TrainState) :
    (epochStep none patience v st).2.1 = false := by
  unfold epochStep
  by_cases h : st.bestNdcg + tol < v <;> simp [h, pyTruthyStr]

/-- With `model_name = None` the loop never records a checkpoint write. -/
theorem trainLoop_none_no_save (obs : ℕ → EpochObs) (patience nTrain : ℕ) :
    ∀ (remaining epoch : ℕ) (st : TrainState) (r : RunResult),
      trainLoop obs none patience nTrain remaining epoch st = some r →
      r.savedEpochs = []
  | 0, epoch, st, r, h => by
    simp only [trainLoop, Option.some.injEq] at h
    subst h
    rfl
  | remaining + 1, epoch, st, r, h => by
    simp only [trainLoop, epochStep_none_no_save, Bool.false_eq_true, if_false] at h
    split at h
    · exact absurd h (by simp)
    · split at h
      · replace h := (Option.some.injEq _ _).mp h
        subst h
        rfl
      · split at h
        · exact absurd h (by simp)
        · next r2 hrec =>
          replace h := (Option.some.injEq _ _).mp h
          subst h
          simpa using trainLoop_none_no_save obs patience nTrain remaining (epoch + 1) _ r2 hrec

/-- Replacing the checkpoint name changes nothing observable about the
run except the recorded checkpoint writes: the history, final state and
early-stop outcome coincide. -/
theorem trainLoop_name_indep (obs : ℕ → EpochObs) (patience nTrain : ℕ)
    (mn1 mn2 : Option String) :
    ∀ (remaining epoch : ℕ) (st : TrainState) (r1 : RunResult),
      trainLoop obs mn1 patience nTrain remaining epoch st = some r1 →
      ∃ r2, trainLoop obs mn2 patience nTrain remaining epoch st = some r2 ∧
        r2.history = r1.history ∧ r2.finalState = r1.finalState ∧
        r2.earlyStopped = r1.earlyStopped
  | 0, epoch, st, r1, h => by
    simp only [trainLoop, Option.some.injEq] at h
    subst h
    exact ⟨_, rfl, rfl, rfl, rfl⟩
  | remaining + 1, epoch, st, r1, h => by
    have hst := (epochStep_name_indep mn1 mn2 patience (obs epoch).valNdcg st).1
    have hfl := (epochStep_name_indep mn1 mn2 patience (obs epoch).valNdcg st).2
    simp only [trainLoop] at h ⊢
    split at h
    · exact absurd h (by simp)
    · next tl heq =>
      by_cases hstop : (epochStep mn1 patience (obs epoch).valNdcg st).2.2
      · rw [if_pos hstop] at h
        replace h := (Option.some.injEq _ _).mp h
        subst h
        refine ⟨⟨[⟨epoch, tl, (obs epoch).valLoss, (obs epoch).valNdcg,
            (obs epoch).valRecall, (obs epoch).lr⟩],
            (epochStep mn2 patience (obs epoch).valNdcg st).1, true,
            if (epochStep mn2 patience (obs epoch).valNdcg st).2.1 = true
              then [epoch] else []⟩, ?_, rfl, hst.symm, rfl⟩
        rw [if_pos (by rw [← hfl]; exact hstop)]
      · rw [if_neg hstop] at h
        split at h
        · exact absurd h (by simp)
        · next r2 hrec =>
          replace h := (Option.some.injEq _ _).mp h
          subst h
          obtain ⟨r3, hr3, hh, hf, he⟩ := trainLoop_name_indep obs patience nTrain mn1 mn2
            remaining (epoch + 1) _ r2 hrec
          rw [hst] at hr3
          refine ⟨⟨(⟨epoch, tl, (obs epoch).valLoss, (obs epoch).valNdcg,
              (obs epoch).valRecall, (obs epoch).lr⟩ : LogEntry) :: r3.history,
              r3.finalState, r3.earlyStopped,
              (if (epochStep mn2 patience (obs epoch).valNdcg st).2.1 = true
                then [epoch] else []) ++ r3.savedEpochs⟩,
            ?_, by simpa using hh, by simpa using hf, by simpa using he⟩
          rw [if_neg (by rw [← hfl]; exact hstop)]
          simp only [hr3]

/-- Claim C9: when `train_model` runs without a `model_name` (the default,
and what the main invocation uses), no checkpoint is ever written — even
in improving epochs — while the history, the best/stall state and the
early-stop outcome evolve exactly as they would with a name. -/
theorem no_checkpoint_without_name (obs : ℕ → EpochObs) (patience nTrain epochs : ℕ)
    (r : RunResult) (h : train_model obs none patience nTrain epochs = some r) :
    r.savedEpochs = [] ∧
    ∀ (name : String) (r2 : RunResult),
      train_model obs (some name) patience nTrain epochs = some r2 →
      r2.history = r.history ∧ r2.finalState = r.finalState ∧
      r2.earlyStopped = r.earlyStopped := by
  refine ⟨trainLoop_none_no_save obs patience nTrain epochs 1 ⟨0, 0⟩ r h, ?_⟩
  intro name r2 h2
  obtain ⟨r3, hr3, hh, hf, he⟩ := trainLoop_name_indep obs patience nTrain none (some name)
    epochs 1 ⟨0, 0⟩ r h
  unfold train_model at h2
  rw [h2] at hr3
  replace hr3 := (Option.some.injEq _ _).mp hr3
  subst hr3
  exact ⟨hh, hf, he⟩

/-- Per-epoch observations whose NDCG equals the epoch index: every epoch
strictly improves, so a named run would checkpoint every epoch. -/
def demoObs2 : ℕ → EpochObs := fun e => ⟨[1], 0, (e : ℚ), 0, 0⟩

/-- The nameless `demoObs2` run: two improving epochs, no saves. -/
def demoRun2 : RunResult :=
  ⟨[⟨1, 1, 0, 1, 0, 0⟩, ⟨2, 1, 0, 2, 0, 0⟩], ⟨2, 0⟩, false, []⟩

/-- The same run with checkpoint name `ckptName`: saves in epochs 1, 2. -/
def demoRun2Named : RunResult :=
  ⟨[⟨1, 1, 0, 1, 0, 0⟩, ⟨2, 1, 0, 2, 0, 0⟩], ⟨2, 0⟩, false, [1, 2]⟩

/-- Computation of the nameless `demoObs2` run. -/
theorem demo_run2_eval : train_model demoObs2 none 2 1 2 = some demoRun2 := by
  simp [train_model, trainLoop, epochStep, pyDiv, tol, demoObs2, demoRun2, pyTruthyStr]
  norm_num

/-- Computation of the named `demoObs2` run. -/
theorem demo_run2_named_eval :
    train_model demoObs2 (some ckptName) 2 1 2 = some demoRun2Named := by
  simp [train_model, trainLoop, epochStep, pyDiv, tol, demoObs2, demoRun2Named,
    pyTruthyStr, ckptName]
  norm_num
  decide

/-- Concrete instance of Claim C9: the nameless `demoObs2` run improves
in both epochs yet records no checkpoint write, and agrees with the named
run on history, final state and early-stop outcome. -/
theorem no_checkpoint_without_name_witness :
    demoRun2.savedEpochs = [] ∧
    (demoRun2Named.history = demoRun2.history ∧
     demoRun2Named.finalState = demoRun2.finalState ∧
     demoRun2Named.earlyStopped = demoRun2.earlyStopped) := by
  have h := no_checkpoint_without_name demoObs2 2 1 2 demoRun2 demo_run2_eval
  exact ⟨h.1, h.2 ckptName demoRun2Named demo_run2_named_eval⟩

/-! ## Loading the processed data -/

/-- `foldl max` dominates the seed and every element, and returns the
seed or an element. -/
theorem foldl_max_spec :
    ∀ (xs : List ℕ) (a : ℕ),
      a ≤ xs.foldl max a ∧ (∀ x ∈ xs, x ≤ xs.foldl max a) ∧
      (xs.foldl max a = a ∨ xs.foldl max a ∈ xs)
  | [], a => ⟨le_refl a, by simp, Or.inl rfl⟩
  | y :: ys, a => by
    obtain ⟨h1, h2, h3⟩ := foldl_max_spec ys (max a y)
    rw [List.foldl_cons]
    refine ⟨le_trans (le_max_left a y) h1, ?_, ?_⟩
    · intro x hx
      rcases List.mem_cons.mp hx with rfl | hx
      · exact le_trans (le_max_right a x) h1
      · exact h2 x hx
    · rcases h3 with hh | hh
      · rcases max_choice a y with hm | hm
        · exact Or.inl (by rw [hh, hm])
        · exact Or.inr (by rw [hh, hm]; exact List.mem_cons_self y ys)
      · exact Or.inr (List.mem_cons_of_mem y hh)

/-- Python `max` on a non-empty collection returns a member that bounds
every element. -/
theorem pyMax_spec (l : List ℕ) (m : ℕ) (h : pyMax l = some m) :
    m ∈ l ∧ ∀ x ∈ l, x ≤ m := by
  cases l with
  | nil => exact absurd h (by simp [pyMax])
  | cons x xs =>
    replace h := (Option.some.injEq _ _).mp (by simpa [pyMax] using h)
    obtain ⟨h1, h2, h3⟩ := foldl_max_spec xs x
    subst h
    constructor
    · rcases h3 with hh | hh
      · rw [hh]; exact List.mem_cons_self x xs
      · exact List.mem_cons_of_mem x hh
    · intro y hy
      rcases List.mem_cons.mp hy with rfl | hy
      · exact h1
      · exact h2 y hy

/-- Claim C8: `load_processed_data` fails when any of the three pickle
files is missing; given all three, it fails when the splits contain no
items (in particular when all sequences are empty), and on success it
returns the three splits unchanged together with `num_items` — a non-zero
item of the union of the splits that bounds every non-zero item, i.e. the
maximum item id excluding 0. -/
theorem load_processed_data_spec (d : ProcessedDir) :
    ((d.trainFileContents = none ∨ d.valFileContents = none ∨
        d.testFileContents = none) → load_processed_data d = none) ∧
    (∀ t v te, d.trainFileContents = some t → d.valFileContents = some v →
      d.testFileContents = some te →
      ((t ++ v ++ te).flatten.filter (fun x => x ≠ 0) = [] →
        load_processed_data d = none) ∧
      ((t ++ v ++ te).flatten.filter (fun x => x ≠ 0) ≠ [] →
        ∃ m, load_processed_data d = some (t, v, te, m)) ∧
      (∀ r, load_processed_data d = some r →
        r.1 = t ∧ r.2.1 = v ∧ r.2.2.1 = te ∧
        r.2.2.2 ∈ (t ++ v ++ te).flatten ∧ r.2.2.2 ≠ 0 ∧
        ∀ x ∈ (t ++ v ++ te).flatten, x ≠ 0 → x ≤ r.2.2.2)) := by
  constructor
  · intro hmiss
    unfold load_processed_data
    cases htr : d.trainFileContents with
    | none => rfl
    | some t =>
      cases hvv : d.valFileContents with
      | none => rfl
      | some v =>
        cases hte : d.testFileContents with
        | none => rfl
        | some te =>
          rcases hmiss with hm | hm | hm
          · rw [htr] at hm; exact absurd hm (by simp)
          · rw [hvv] at hm; exact absurd hm (by simp)
          · rw [hte] at hm; exact absurd hm (by simp)
  · intro t v te ht hv hte
    unfold load_processed_data
    rw [ht, hv, hte]
    simp only []
    refine ⟨fun hemp => ?_, fun hne => ?_, fun r hr => ?_⟩
    · rw [hemp]
      rfl
    · cases hfil : (t ++ v ++ te).flatten.filter (fun x => x ≠ 0) with
      | nil => exact absurd hfil hne
      | cons x xs => exact ⟨xs.foldl max x, rfl⟩
    · cases hmax : pyMax ((t ++ v ++ te).flatten.filter (fun x => x ≠ 0)) with
      | none => rw [hmax] at hr; exact absurd hr (by simp)
      | some m =>
        rw [hmax] at hr
        replace hr := (Option.some.injEq _ _).mp hr
        obtain ⟨hmem, hbound⟩ := pyMax_spec _ m hmax
        have hmem2 := List.mem_filter.mp hmem
        subst hr
        refine ⟨rfl, rfl, rfl, hmem2.1, by simpa using hmem2.2, ?_⟩
        intro x hx hxz
        exact hbound x (List.mem_filter.mpr ⟨hx, by simpa using hxz⟩)

/-- A concrete processed-data directory: all three files present, items
{1, 2} in train, {3} in val, {2} plus an explicit 0 in test. -/
def demoDir : ProcessedDir := ⟨some [[1, 2]], some [[3]], some [[2, 0]]⟩

/-- Concrete instance of Claim C8 on `demoDir`: the computed `num_items`
is 3, a non-zero member of the union bounding every non-zero item. -/
theorem load_processed_data_spec_witness :
    load_processed_data demoDir = some ([[1, 2]], [[3]], [[2, 0]], 3) ∧
    (3 : ℕ) ∈ ([[1, 2]] ++ [[3]] ++ [[2, 0]] : List (List ℕ)).flatten ∧ (3 : ℕ) ≠ 0 := by
  have hload : load_processed_data demoDir = some ([[1, 2]], [[3]], [[2, 0]], 3) := by
    simp [load_processed_data, demoDir, pyMax]
  have h := ((load_processed_data_spec demoDir).2 [[1, 2]] [[3]] [[2, 0]]
    rfl rfl rfl).2.2 ([[1, 2]], [[3]], [[2, 0]], 3) hload
  exact ⟨hload, h.2.2.2.1, h.2.2.2.2.1⟩
